import Mathlib

/-!
Verification development for src/pysme/grid_conv.py.

The module has three functions: l1_norm, double_increments and calc_rate.
They operate on numpy arrays of floats; floats are modelled by an arbitrary
linear ordered field alpha (instantiated at rationals or reals in the
theorems), a 1-D ndarray by List alpha, and a 2-D ndarray (a batch of rows)
by List (List alpha).  The constants np.sqrt(2) and np.sqrt(3) and the
function np.log enter the code only as opaque scalars/maps, so they are
passed as parameters s2, s3 and log; at alpha := Real, s2 := Real.sqrt 2,
s3 := Real.sqrt 3, log := Real.log the definitions are the source verbatim.
-/

namespace GridConv

set_option autoImplicit false
set_option linter.unusedSectionVars false
set_option linter.unusedVariables false

universe u v w

variable {γ : Type u} {δ : Type v} {ε : Type w}
variable {α : Type} [LinearOrderedField α]

/-- Python basic slice xs[::2]: every other element starting at index 0. -/
def sliceStep2 : List γ → List γ
  | [] => []
  | [x] => [x]
  | x :: _ :: xs => x :: sliceStep2 xs

/-- Python basic slice xs[1::2]: every other element starting at index 1. -/
def sliceOdd : List γ → List γ
  | [] => []
  | [_] => []
  | _ :: y :: xs => y :: sliceOdd xs

/-- Elementwise combination of two 1-D numpy arrays under numpy's
broadcasting rule: shapes (m,) and (k,) combine elementwise when m = k,
stretch the length-1 operand when m = 1 or k = 1, and otherwise raise a
ValueError (modelled as none). -/
def bcast (f : γ → δ → ε) : List γ → List δ → Option (List ε)
  | [], [] => some []
  | [], [_] => some []
  | [_], [] => some []
  | [x], [y] => some [f x y]
  | x1 :: x2 :: xs, [y] => some ((x1 :: x2 :: xs).map (fun x => f x y))
  | [x], y1 :: y2 :: ys => some ((y1 :: y2 :: ys).map (fun y => f x y))
  | [], _ :: _ :: _ => none
  | _ :: _ :: _, [] => none
  | x1 :: x2 :: xs, y1 :: y2 :: ys =>
    if (x1 :: x2 :: xs).length = (y1 :: y2 :: ys).length then
      some (List.zipWith f (x1 :: x2 :: xs) (y1 :: y2 :: ys))
    else none

/-- Source lines 55-67 (double_increments) on rank-1 arrays.
new_times = times[::2]; even_U1s = U1s[::2]; odd_U1s = U1s[1::2];
new_U1s = (even_U1s + odd_U1s)/sqrt(2); if U2s is None the pair
(new_times, new_U1s) is returned (third component none), else also
new_U2s = (sqrt(3)*(even_U1s - odd_U1s) + even_U2s + odd_U2s)/(2*sqrt(2)).
A numpy broadcast failure anywhere is the error value none. -/
def double_increments (s2 s3 : α) (times U1s : List α) (U2s : Option (List α)) :
    Option (List α × List α × Option (List α)) :=
  let new_times := sliceStep2 times
  let even_U1s := sliceStep2 U1s
  let odd_U1s := sliceOdd U1s
  (bcast (fun a b => a + b) even_U1s odd_U1s).bind (fun s =>
    let new_U1s := s.map (fun x => x / s2)
    match U2s with
    | none => some (new_times, new_U1s, none)
    | some u2 =>
      (bcast (fun a b => a - b) even_U1s odd_U1s).bind (fun d =>
        (bcast (fun a b => a + b) (d.map (fun x => s3 * x)) (sliceStep2 u2)).bind (fun t3 =>
          (bcast (fun a b => a + b) t3 (sliceOdd u2)).bind (fun t4 =>
            some (new_times, new_U1s, some (t4.map (fun x => x / (2 * s2))))))))

/-- Collect a list of optional rows, failing when any row failed. -/
def seqOpt : List (Option γ) → Option (List γ)
  | [] => some []
  | none :: _ => none
  | some x :: rest => (seqOpt rest).map (fun l => x :: l)

/-- Elementwise combination of two 2-D numpy arrays: numpy broadcasting on
the outer (row) axis via bcast, and on the inner axis via bcast again; any
shape failure is none. -/
def bcast2 (f : α → α → α) (xss yss : List (List α)) : Option (List (List α)) :=
  (bcast (fun r s => bcast f r s) xss yss).bind (fun rows => seqOpt rows)

/-- Source lines 55-67 (double_increments) on rank-2 arrays (a batch of N
rows, as the docstring's numpy.array(N, len(times) - 1)).  Python slicing
U1s[::2] on a 2-D array acts on axis 0, i.e. on the outer list of rows;
scalar division and multiplication map over both axes. -/
def double_increments2 (s2 s3 : α) (times : List α) (U1s : List (List α))
    (U2s : Option (List (List α))) :
    Option (List α × List (List α) × Option (List (List α))) :=
  let new_times := sliceStep2 times
  let even_U1s := sliceStep2 U1s
  let odd_U1s := sliceOdd U1s
  (bcast2 (fun a b => a + b) even_U1s odd_U1s).bind (fun s =>
    let new_U1s := s.map (fun row => row.map (fun x => x / s2))
    match U2s with
    | none => some (new_times, new_U1s, none)
    | some u2 =>
      (bcast2 (fun a b => a - b) even_U1s odd_U1s).bind (fun d =>
        (bcast2 (fun a b => a + b) (d.map (fun row => row.map (fun x => s3 * x)))
            (sliceStep2 u2)).bind (fun t3 =>
          (bcast2 (fun a b => a + b) t3 (sliceOdd u2)).bind (fun t4 =>
            some (new_times, new_U1s,
              some (t4.map (fun row => row.map (fun x => x / (2 * s2)))))))))

/-- Source lines 11-12: l1_norm(vec) = np.sum(np.abs(vec)), the sum of the
absolute values of the scalar components. -/
def l1_norm (vec : List α) : α := (vec.map (fun x => |x|)).sum

/-- Elementwise difference of two states of equal dimension (numpy a - b). -/
def vsub (x y : List α) : List α := List.zipWith (fun a b => a - b) x y

/-- Python t[-1]: the final state of a (nonempty) trajectory. -/
def lastState (traj : List (List α)) : List α := traj.getLastD []

/-- np.random.randn(n) drawn from an external entropy stream e, reading the
n samples e start, e (start+1), ..., e (start+n-1). -/
def draw (e : ℕ → α) (start n : ℕ) : List α := (List.range n).map (fun i => e (start + i))

/-- Source lines 96-113 (calc_rate).  The integrator collaborator is the
opaque function integrate (rho_0, times, U1s, U2s) giving the vec_soln list
of states.  The result is the returned rate (none when the tuple unpacking
times_2, U1s_2, U2s_2 = double_increments(...) fails, which a 2-tuple or a
broadcast error would make it do), paired with the number of entropy
samples consumed by np.random.randn. -/
def calc_rate (log : α → α) (s2 s3 : α)
    (integrate : List α → List α → List α → List α → List (List α))
    (rho_0 : List α) (times : List α) (U1s U2s : Option (List α)) (e : ℕ → α) :
    Option α × ℕ :=
  let increments := times.length - 1
  let p1 : List α × ℕ :=
    match U1s with
    | some u => (u, 0)
    | none => (draw e 0 increments, increments)
  let p2 : List α × ℕ :=
    match U2s with
    | some u => (u, 0)
    | none => (draw e p1.2 increments, increments)
  let rate : Option α :=
    match double_increments s2 s3 times p1.1 (some p2.1) with
    | none => none
    | some (_, _, none) => none
    | some (times_2, U1s_2, some U2s_2) =>
      match double_increments s2 s3 times_2 U1s_2 (some U2s_2) with
      | none => none
      | some (_, _, none) => none
      | some (times_4, U1s_4, some U2s_4) =>
        let rhos := integrate rho_0 times p1.1 p2.1
        let rhos_2 := integrate rho_0 times_2 U1s_2 U2s_2
        let rhos_4 := integrate rho_0 times_4 U1s_4 U2s_4
        some ((log (l1_norm (vsub (lastState rhos_4) (lastState rhos_2))) -
               log (l1_norm (vsub (lastState rhos_2) (lastState rhos)))) / log 2)
  (rate, p1.2 + p2.2)

/-- Heap of numpy buffers: buffer id and cell index to stored scalar. -/
def Heap (β : Type) : Type := ℕ → ℕ → β

/-- A numpy ndarray view: the buffer it lives in, its offset into that
buffer, its stride and its length.  numpy basic slicing (times[::2],
U1s[1::2], ...) produces such a view over the same buffer without copying;
arithmetic expressions allocate a fresh buffer. -/
structure NView where
  base : ℕ
  off : ℕ
  stride : ℕ
  len : ℕ
deriving DecidableEq

/-- Read element i of a view from the heap. -/
def NView.read (h : Heap α) (a : NView) (i : ℕ) : α := h a.base (a.off + i * a.stride)

/-- Materialize the values of a view as a list. -/
def NView.toList (h : Heap α) (a : NView) : List α :=
  (List.range a.len).map (fun i => a.read h i)

/-- numpy basic slice a[::2] as a view: same buffer, doubled stride. -/
def npSlice2 (a : NView) : NView := ⟨a.base, a.off, 2 * a.stride, (a.len + 1) / 2⟩

/-- numpy basic slice a[1::2] as a view: same buffer, shifted offset. -/
def npSlice2Odd (a : NView) : NView := ⟨a.base, a.off + a.stride, 2 * a.stride, a.len / 2⟩

/-- Store the list l into buffer b of the heap (a fresh allocation writes
into a previously unused buffer id). -/
def writeList (h : Heap α) (b : ℕ) (l : List α) : Heap α :=
  fun c i => if c = b then (l.get? i).getD (h c i) else h c i

/-- Source lines 55-67 (double_increments) at the numpy memory level:
slices of the inputs are views (no copy, shared buffer), each arithmetic
result is written to a freshly allocated buffer (ctr is the next free
buffer id).  Returns the new heap, the next free buffer id, and views for
new_times, new_U1s and (when U2s is supplied) new_U2s. -/
def double_increments_mem (s2 s3 : α) (h : Heap α) (ctr : ℕ)
    (times U1s : NView) (U2s : Option NView) :
    Option (Heap α × ℕ × NView × NView × Option NView) :=
  let new_times := npSlice2 times
  let even_U1s := npSlice2 U1s
  let odd_U1s := npSlice2Odd U1s
  (bcast (fun a b => a + b) (even_U1s.toList h) (odd_U1s.toList h)).bind (fun s =>
    let new_U1s_vals := s.map (fun x => x / s2)
    let h1 := writeList h ctr new_U1s_vals
    let new_U1s : NView := ⟨ctr, 0, 1, new_U1s_vals.length⟩
    match U2s with
    | none => some (h1, ctr + 1, new_times, new_U1s, none)
    | some u2 =>
      (bcast (fun a b => a - b) (even_U1s.toList h1) (odd_U1s.toList h1)).bind (fun d =>
        (bcast (fun a b => a + b) (d.map (fun x => s3 * x))
            ((npSlice2 u2).toList h1)).bind (fun t3 =>
          (bcast (fun a b => a + b) t3 ((npSlice2Odd u2).toList h1)).bind (fun t4 =>
            let new_U2s_vals := t4.map (fun x => x / (2 * s2))
            let h2 := writeList h1 (ctr + 1) new_U2s_vals
            some (h2, ctr + 2, new_times, new_U1s,
              some ⟨ctr + 1, 0, 1, new_U2s_vals.length⟩)))))

/-! Basic lemmas about the slicing and broadcasting primitives. -/

theorem sliceStep2_length : ∀ (l : List γ), (sliceStep2 l).length = (l.length + 1) / 2
  | [] => by simp [sliceStep2]
  | [_] => by simp [sliceStep2]
  | _ :: _ :: xs => by
    simp only [sliceStep2, List.length_cons, sliceStep2_length xs]
    omega

theorem sliceOdd_length : ∀ (l : List γ), (sliceOdd l).length = l.length / 2
  | [] => by simp [sliceOdd]
  | [_] => by simp [sliceOdd]
  | _ :: _ :: xs => by
    simp only [sliceOdd, List.length_cons, sliceOdd_length xs]
    omega

theorem sliceStep2_getElem? : ∀ (l : List γ) (k : ℕ), (sliceStep2 l)[k]? = l[2 * k]?
  | [], k => by simp [sliceStep2]
  | [x], k => by
    cases k with
    | zero => simp [sliceStep2]
    | succ k =>
      have h2 : 2 * (k + 1) = 2 * k + 1 + 1 := by omega
      simp [sliceStep2, h2]
  | x :: y :: xs, k => by
    cases k with
    | zero => simp [sliceStep2]
    | succ k =>
      have h2 : 2 * (k + 1) = 2 * k + 1 + 1 := by omega
      simp only [sliceStep2, h2, List.getElem?_cons_succ]
      exact sliceStep2_getElem? xs k

theorem sliceOdd_getElem? : ∀ (l : List γ) (k : ℕ), (sliceOdd l)[k]? = l[2 * k + 1]?
  | [], k => by simp [sliceOdd]
  | [x], k => by
    cases k with
    | zero => simp [sliceOdd]
    | succ k =>
      have h2 : 2 * (k + 1) + 1 = 2 * k + 1 + 1 + 1 := by omega
      simp [sliceOdd, h2]
  | x :: y :: xs, k => by
    cases k with
    | zero => simp [sliceOdd]
    | succ k =>
      have h2 : 2 * (k + 1) + 1 = 2 * k + 1 + 1 + 1 := by omega
      simp only [sliceOdd, h2, List.getElem?_cons_succ]
      exact sliceOdd_getElem? xs k

theorem bcast_eq_zipWith (f : γ → δ → ε) (xs : List γ) (ys : List δ)
    (h : xs.length = ys.length) : bcast f xs ys = some (List.zipWith f xs ys) := by
  match xs, ys with
  | [], [] => rfl
  | [], _ :: _ => simp at h
  | _ :: _, [] => simp at h
  | [x], [y] => rfl
  | [x], _ :: _ :: _ => simp only [List.length_cons, List.length_nil] at h; omega
  | _ :: _ :: _, [y] => simp only [List.length_cons, List.length_nil] at h; omega
  | x1 :: x2 :: xs, y1 :: y2 :: ys => simp [bcast, h]

theorem bcast_eq_none (f : γ → δ → ε) (xs : List γ) (ys : List δ)
    (hx : 2 ≤ xs.length) (hy : 2 ≤ ys.length) (hne : xs.length ≠ ys.length) :
    bcast f xs ys = none := by
  match xs, ys with
  | [], _ => simp at hx
  | [x], _ => simp at hx
  | _ :: _ :: _, [] => simp at hy
  | _ :: _ :: _, [y] => simp at hy
  | x1 :: x2 :: xs, y1 :: y2 :: ys =>
    have hne' : ¬xs.length = ys.length := by
      simp only [List.length_cons] at hne; omega
    simp [bcast, hne']

theorem getElem?_eq_some_getD (l : List γ) (d : γ) (i : ℕ) (h : i < l.length) :
    l[i]? = some (l.getD i d) := by
  rw [List.getD_eq_getElem?_getD]
  rcases hg : l[i]? with _ | v
  · rw [List.getElem?_eq_none_iff] at hg
    omega
  · rfl

theorem zipWith_getElem?_some (f : γ → δ → ε) :
    ∀ (xs : List γ) (ys : List δ) (k : ℕ) (a : γ) (b : δ),
      xs[k]? = some a → ys[k]? = some b →
      (List.zipWith f xs ys)[k]? = some (f a b)
  | [], _, k, _, _, ha, _ => by simp at ha
  | _ :: _, [], k, _, _, _, hb => by simp at hb
  | x :: xs, y :: ys, 0, a, b, ha, hb => by
    simp only [List.getElem?_cons_zero, Option.some.injEq] at ha hb
    simp [List.zipWith, ha, hb]
  | x :: xs, y :: ys, k + 1, a, b, ha, hb => by
    simp only [List.getElem?_cons_succ] at ha hb
    simpa [List.zipWith] using zipWith_getElem?_some f xs ys k a b ha hb

/-! Reductions of double_increments on well-shaped (even-length) input. -/

theorem dbl_none_even (s2 s3 : α) (ts u1 : List α) (h : u1.length % 2 = 0) :
    double_increments s2 s3 ts u1 none =
      some (sliceStep2 ts,
        (List.zipWith (fun a b => a + b) (sliceStep2 u1) (sliceOdd u1)).map (fun x => x / s2),
        none) := by
  have hlen : (sliceStep2 u1).length = (sliceOdd u1).length := by
    rw [sliceStep2_length, sliceOdd_length]; omega
  simp [double_increments, bcast_eq_zipWith _ _ _ hlen]

theorem dbl_some_even (s2 s3 : α) (ts u1 u2 : List α) (h : u1.length % 2 = 0)
    (hu2 : u2.length = u1.length) :
    double_increments s2 s3 ts u1 (some u2) =
      some (sliceStep2 ts,
        (List.zipWith (fun a b => a + b) (sliceStep2 u1) (sliceOdd u1)).map (fun x => x / s2),
        some ((List.zipWith (fun a b => a + b)
                (List.zipWith (fun a b => a + b)
                  ((List.zipWith (fun a b => a - b) (sliceStep2 u1) (sliceOdd u1)).map
                    (fun x => s3 * x))
                  (sliceStep2 u2))
                (sliceOdd u2)).map (fun x => x / (2 * s2)))) := by
  have hlen : (sliceStep2 u1).length = (sliceOdd u1).length := by
    rw [sliceStep2_length, sliceOdd_length]; omega
  have hlen3 : (((List.zipWith (fun a b => a - b) (sliceStep2 u1) (sliceOdd u1)).map
      (fun x => s3 * x))).length = (sliceStep2 u2).length := by
    simp [List.length_zipWith, sliceStep2_length, sliceOdd_length, hu2]
    omega
  have hlen4 : ((List.zipWith (fun a b => a + b)
      ((List.zipWith (fun a b => a - b) (sliceStep2 u1) (sliceOdd u1)).map
        (fun x => s3 * x)) (sliceStep2 u2))).length = (sliceOdd u2).length := by
    simp [List.length_zipWith, sliceStep2_length, sliceOdd_length, hu2]
    omega
  simp [double_increments, bcast_eq_zipWith _ _ _ hlen, bcast_eq_zipWith _ _ _ hlen3,
    bcast_eq_zipWith _ _ _ hlen4]

/-- With a supplied U2 argument, double_increments can never take the
two-element return path: whenever it succeeds the third component is some. -/
theorem dbl_someU2_isSome (s2 s3 : α) (ts u1 u2 : List α) :
    ((double_increments s2 s3 ts u1 (some u2)).map (fun r => r.2.2.isSome)).getD true
      = true := by
  rcases hb1 : bcast (fun a b : α => a + b) (sliceStep2 u1) (sliceOdd u1) with _ | s
  · simp [double_increments, hb1]
  · rcases hb2 : bcast (fun a b : α => a - b) (sliceStep2 u1) (sliceOdd u1) with _ | d
    · simp [double_increments, hb1, hb2]
    · rcases hb3 : bcast (fun a b : α => a + b) (d.map fun x => s3 * x) (sliceStep2 u2)
        with _ | t3
      · simp [double_increments, hb1, hb2, hb3]
      · rcases hb4 : bcast (fun a b : α => a + b) t3 (sliceOdd u2) with _ | t4
        · simp [double_increments, hb1, hb2, hb3, hb4]
        · simp [double_increments, hb1, hb2, hb3, hb4]

theorem l1_norm_vsub_self (x : List α) : l1_norm (vsub x x) = 0 := by
  simp [l1_norm, vsub]

theorem writeList_ne (h : Heap α) (b : ℕ) (l : List α) (c i : ℕ) (hc : c ≠ b) :
    writeList h b l c i = h c i := by
  simp [writeList, hc]

/-- Closed form of calc_rate when both noise sequences are supplied and the
two refinement steps are given by their results. -/
theorem calc_rate_eq (log : α → α) (s2 s3 : α)
    (integrate : List α → List α → List α → List α → List (List α))
    (rho_0 ts u1 u2 ts2 u12 u22 ts4 u14 u24 : List α) (e : ℕ → α)
    (h1 : double_increments s2 s3 ts u1 (some u2) = some (ts2, u12, some u22))
    (h2 : double_increments s2 s3 ts2 u12 (some u22) = some (ts4, u14, some u24)) :
    calc_rate log s2 s3 integrate rho_0 ts (some u1) (some u2) e =
      (some ((log (l1_norm (vsub (lastState (integrate rho_0 ts4 u14 u24))
                                 (lastState (integrate rho_0 ts2 u12 u22)))) -
              log (l1_norm (vsub (lastState (integrate rho_0 ts2 u12 u22))
                                 (lastState (integrate rho_0 ts u1 u2))))) / log 2), 0) := by
  simp [calc_rate, h1, h2]

/-! Claim theorems. -/

/-- C2: for every even n, every time grid of length n+1 and every 1-D
increment sequence U1 of length n, double_increments returns U1' of length
n/2 with U1'[k] = (U1[2k] + U1[2k+1]) / sqrt 2 for every k < n/2.  Stated
for an arbitrary linear ordered field and arbitrary value s2 of the scalar
np.sqrt(2); the spec's statement is the instance at the reals with
s2 = Real.sqrt 2, s3 = Real.sqrt 3. -/
theorem C2_refined_U1_formula (s2 s3 : α) (ts u1 : List α) (n k : ℕ)
    (hts : ts.length = n + 1) (hu : u1.length = n) (hn : n % 2 = 0) (hk : k < n / 2) :
    ((double_increments s2 s3 ts u1 none).bind (fun r => r.2.1[k]?))
        = some ((u1.getD (2 * k) 0 + u1.getD (2 * k + 1) 0) / s2)
    ∧ ((double_increments s2 s3 ts u1 none).map (fun r => r.2.1.length)) = some (n / 2) := by
  have heven : u1.length % 2 = 0 := by omega
  rw [dbl_none_even s2 s3 ts u1 heven]
  refine ⟨?_, ?_⟩
  · have ha : (sliceStep2 u1)[k]? = some (u1.getD (2 * k) 0) := by
      rw [sliceStep2_getElem?]
      exact getElem?_eq_some_getD _ _ _ (by omega)
    have hb : (sliceOdd u1)[k]? = some (u1.getD (2 * k + 1) 0) := by
      rw [sliceOdd_getElem?]
      exact getElem?_eq_some_getD _ _ _ (by omega)
    simp [List.getElem?_map, zipWith_getElem?_some _ _ _ _ _ _ ha hb]
  · simp [List.length_zipWith, sliceStep2_length, sliceOdd_length, hu]
    omega

/-- Witness for C2 at the concrete input times = [0,1,2], U1 = [5,7]. -/
theorem C2_refined_U1_formula_w :
    ((double_increments (10 : ℚ) 17 [0, 1, 2] [5, 7] none).bind (fun r => r.2.1[0]?))
        = some ((([5, 7] : List ℚ).getD (2 * 0) 0 + ([5, 7] : List ℚ).getD (2 * 0 + 1) 0) / 10)
    ∧ ((double_increments (10 : ℚ) 17 [0, 1, 2] [5, 7] none).map (fun r => r.2.1.length))
        = some (2 / 2) :=
  C2_refined_U1_formula 10 17 [0, 1, 2] [5, 7] 2 0 (by decide) (by decide) (by decide)
    (by decide)

/-- C3: for every even n and 1-D sequences U1, U2 of length n,
double_increments with U2 supplied returns U2' of length n/2 with
U2'[k] = (sqrt 3 * (U1[2k] - U1[2k+1]) + U2[2k] + U2[2k+1]) / (2 * sqrt 2);
and with U2 omitted the result carries no U2' at all (the returned tuple's
third slot, modelling the two-element return, is none).  s2 and s3 stand
for np.sqrt(2) and np.sqrt(3). -/
theorem C3_refined_U2_formula (s2 s3 : α) (ts u1 u2 : List α) (n k : ℕ)
    (hu : u1.length = n) (hu2 : u2.length = n) (hn : n % 2 = 0) (hk : k < n / 2) :
    (((double_increments s2 s3 ts u1 (some u2)).bind (fun r => r.2.2)).bind (fun l => l[k]?))
        = some ((s3 * (u1.getD (2 * k) 0 - u1.getD (2 * k + 1) 0)
                  + u2.getD (2 * k) 0 + u2.getD (2 * k + 1) 0) / (2 * s2))
    ∧ (((double_increments s2 s3 ts u1 (some u2)).bind (fun r => r.2.2)).map List.length)
        = some (n / 2)
    ∧ ((double_increments s2 s3 ts u1 none).map (fun r => r.2.2)) = some none := by
  have heven : u1.length % 2 = 0 := by omega
  rw [dbl_some_even s2 s3 ts u1 u2 heven (by omega)]
  refine ⟨?_, ?_, ?_⟩
  · have ha : (sliceStep2 u1)[k]? = some (u1.getD (2 * k) 0) := by
      rw [sliceStep2_getElem?]
      exact getElem?_eq_some_getD _ _ _ (by omega)
    have hb : (sliceOdd u1)[k]? = some (u1.getD (2 * k + 1) 0) := by
      rw [sliceOdd_getElem?]
      exact getElem?_eq_some_getD _ _ _ (by omega)
    have hc : (sliceStep2 u2)[k]? = some (u2.getD (2 * k) 0) := by
      rw [sliceStep2_getElem?]
      exact getElem?_eq_some_getD _ _ _ (by omega)
    have hd : (sliceOdd u2)[k]? = some (u2.getD (2 * k + 1) 0) := by
      rw [sliceOdd_getElem?]
      exact getElem?_eq_some_getD _ _ _ (by omega)
    have h1 : (((List.zipWith (fun a b => a - b) (sliceStep2 u1) (sliceOdd u1)).map
        (fun x => s3 * x)))[k]? = some (s3 * (u1.getD (2 * k) 0 - u1.getD (2 * k + 1) 0)) := by
      rw [List.getElem?_map, zipWith_getElem?_some _ _ _ _ _ _ ha hb]
      rfl
    have h2 := zipWith_getElem?_some (fun a b : α => a + b) _ _ k _ _ h1 hc
    have h3 := zipWith_getElem?_some (fun a b : α => a + b) _ _ k _ _ h2 hd
    simp [List.getElem?_map, h3]
  · simp [List.length_zipWith, sliceStep2_length, sliceOdd_length, hu, hu2]
    omega
  · rw [dbl_none_even s2 s3 ts u1 heven]
    rfl

/-- Witness for C3 at the concrete input U1 = [5,7], U2 = [11,13]. -/
theorem C3_refined_U2_formula_w :
    (((double_increments (10 : ℚ) 17 [0, 1, 2] [5, 7] (some [11, 13])).bind
        (fun r => r.2.2)).bind (fun l => l[0]?))
        = some ((17 * (([5, 7] : List ℚ).getD (2 * 0) 0 - ([5, 7] : List ℚ).getD (2 * 0 + 1) 0)
                  + ([11, 13] : List ℚ).getD (2 * 0) 0 + ([11, 13] : List ℚ).getD (2 * 0 + 1) 0)
                / (2 * 10))
    ∧ (((double_increments (10 : ℚ) 17 [0, 1, 2] [5, 7] (some [11, 13])).bind
        (fun r => r.2.2)).map List.length) = some (2 / 2)
    ∧ ((double_increments (10 : ℚ) 17 [0, 1, 2] [5, 7] none).map (fun r => r.2.2))
        = some none :=
  C3_refined_U2_formula 10 17 [0, 1, 2] [5, 7] [11, 13] 2 0 (by decide) (by decide)
    (by decide) (by decide)

/-- C4: refinement length law.  For every even m, double_increments on a
grid of m+1 times and m increments returns a grid of m/2+1 times (exactly
every other element of the input grid, starting at index 0) and m/2
increments; and for every k divisible by 4, applying it twice yields a
level-4 grid equal to every fourth element of the original grid, of length
k/4+1, with k/4 increments. -/
theorem C4_length_law (s2 s3 : α) (ts u1 ts2 u12 : List α) (o1 : Option (List α)) (m : ℕ)
    (hts : ts.length = m + 1) (hu : u1.length = m) (hm : m % 2 = 0)
    (h1 : double_increments s2 s3 ts u1 none = some (ts2, u12, o1))
    (ss w1 ss2 w12 ss4 w14 : List α) (p1 p2 : Option (List α)) (k : ℕ)
    (hss : ss.length = k + 1) (hw : w1.length = k) (hk : k % 4 = 0)
    (g1 : double_increments s2 s3 ss w1 none = some (ss2, w12, p1))
    (g2 : double_increments s2 s3 ss2 w12 none = some (ss4, w14, p2)) :
    ts2.length = m / 2 + 1 ∧ u12.length = m / 2
    ∧ ts2 = List.ofFn (fun i : Fin (m / 2 + 1) => ts.getD (2 * (i : ℕ)) 0)
    ∧ ss4.length = k / 4 + 1 ∧ w14.length = k / 4
    ∧ ss4 = List.ofFn (fun i : Fin (k / 4 + 1) => ss.getD (4 * (i : ℕ)) 0) := by
  rw [dbl_none_even s2 s3 ts u1 (by omega)] at h1
  rw [dbl_none_even s2 s3 ss w1 (by omega)] at g1
  obtain ⟨ht2, hu12, ho1⟩ : ts2 = sliceStep2 ts
      ∧ u12 = (List.zipWith (fun a b => a + b) (sliceStep2 u1) (sliceOdd u1)).map
          (fun x => x / s2)
      ∧ o1 = none := by
    have := h1.symm
    simp only [Option.some.injEq, Prod.mk.injEq] at this
    exact ⟨this.1, this.2.1, this.2.2⟩
  obtain ⟨hs2, hw12, hp1⟩ : ss2 = sliceStep2 ss
      ∧ w12 = (List.zipWith (fun a b => a + b) (sliceStep2 w1) (sliceOdd w1)).map
          (fun x => x / s2)
      ∧ p1 = none := by
    have := g1.symm
    simp only [Option.some.injEq, Prod.mk.injEq] at this
    exact ⟨this.1, this.2.1, this.2.2⟩
  have hw12len : w12.length = k / 2 := by
    rw [hw12]
    simp [List.length_zipWith, sliceStep2_length, sliceOdd_length, hw]
    omega
  rw [dbl_none_even s2 s3 ss2 w12 (by omega)] at g2
  obtain ⟨hs4, hw14, hp2⟩ : ss4 = sliceStep2 ss2
      ∧ w14 = (List.zipWith (fun a b => a + b) (sliceStep2 w12) (sliceOdd w12)).map
          (fun x => x / s2)
      ∧ p2 = none := by
    have := g2.symm
    simp only [Option.some.injEq, Prod.mk.injEq] at this
    exact ⟨this.1, this.2.1, this.2.2⟩
  refine ⟨?_, ?_, ?_, ?_, ?_, ?_⟩
  · rw [ht2, sliceStep2_length, hts]; omega
  · rw [hu12]
    simp [List.length_zipWith, sliceStep2_length, sliceOdd_length, hu]
    omega
  · rw [ht2]
    apply List.ext_getElem?
    intro i
    rw [sliceStep2_getElem?, List.getElem?_ofFn]
    by_cases hi : i < m / 2 + 1
    · rw [List.ofFnNthVal, dif_pos hi]
      exact getElem?_eq_some_getD _ _ _ (by omega)
    · rw [List.ofFnNthVal, dif_neg hi]
      rw [List.getElem?_eq_none_iff]
      omega
  · rw [hs4, sliceStep2_length, hs2, sliceStep2_length, hss]; omega
  · rw [hw14]
    simp [List.length_zipWith, sliceStep2_length, sliceOdd_length, hw12len]
    omega
  · rw [hs4, hs2]
    apply List.ext_getElem?
    intro i
    rw [sliceStep2_getElem?, sliceStep2_getElem?, List.getElem?_ofFn]
    have h4 : 2 * (2 * i) = 4 * i := by omega
    rw [h4]
    by_cases hi : i < k / 4 + 1
    · rw [List.ofFnNthVal, dif_pos hi]
      exact getElem?_eq_some_getD _ _ _ (by omega)
    · rw [List.ofFnNthVal, dif_neg hi]
      rw [List.getElem?_eq_none_iff]
      omega

/-- Witness for C4 at the concrete inputs m = 2 (times [0,1,2]) and k = 4
(times [0,1,2,3,4]). -/
theorem C4_length_law_w :
    ([0, 2] : List ℚ).length = 2 / 2 + 1 ∧ ([3 / 10] : List ℚ).length = 2 / 2
    ∧ ([0, 2] : List ℚ) = List.ofFn (fun i : Fin (2 / 2 + 1) =>
        ([0, 1, 2] : List ℚ).getD (2 * (i : ℕ)) 0)
    ∧ ([0, 4] : List ℚ).length = 4 / 4 + 1 ∧ ([1 / 10] : List ℚ).length = 4 / 4
    ∧ ([0, 4] : List ℚ) = List.ofFn (fun i : Fin (4 / 4 + 1) =>
        ([0, 1, 2, 3, 4] : List ℚ).getD (4 * (i : ℕ)) 0) :=
  C4_length_law 10 17 [0, 1, 2] [1, 2] [0, 2] [3 / 10] none 2
    (by decide) (by decide) (by decide)
    (by norm_num [double_increments, sliceStep2, sliceOdd, bcast])
    [0, 1, 2, 3, 4] [1, 2, 3, 4] [0, 2, 4] [3 / 10, 7 / 10] [0, 4] [1 / 10] none none 4
    (by decide) (by decide) (by decide)
    (by norm_num [double_increments, sliceStep2, sliceOdd, bcast])
    (by norm_num [double_increments, sliceStep2, sliceOdd, bcast])

/-- C1: for every call with n = len(times) - 1 divisible by 4 that runs the
integrator at the three nested grids times, times_2, times_4 (derived from
the same noise by the two refinement calls, rho_0 held fixed), the returned
rate is (log d1 - log d2) / log 2, where d1 is the L1 norm of the
difference of the final states of the coarsest and middle trajectories and
d2 that of the middle and finest; log, s2, s3 stand for np.log, np.sqrt(2)
and np.sqrt(3), so at the reals with log = Real.log this is the spec's
formula (ln d1 - ln d2) / ln 2. -/
theorem C1_rate_formula (log : α → α) (s2 s3 : α)
    (integrate : List α → List α → List α → List α → List (List α))
    (rho_0 ts u1 u2 ts2 u12 u22 ts4 u14 u24 : List α) (e : ℕ → α)
    (hdiv : (ts.length - 1) % 4 = 0)
    (h1 : double_increments s2 s3 ts u1 (some u2) = some (ts2, u12, some u22))
    (h2 : double_increments s2 s3 ts2 u12 (some u22) = some (ts4, u14, some u24)) :
    calc_rate log s2 s3 integrate rho_0 ts (some u1) (some u2) e =
      (some ((log (l1_norm (vsub (lastState (integrate rho_0 ts4 u14 u24))
                                 (lastState (integrate rho_0 ts2 u12 u22)))) -
              log (l1_norm (vsub (lastState (integrate rho_0 ts2 u12 u22))
                                 (lastState (integrate rho_0 ts u1 u2))))) / log 2), 0) :=
  calc_rate_eq log s2 s3 integrate rho_0 ts u1 u2 ts2 u12 u22 ts4 u14 u24 e h1 h2

/-- Witness for C1 at the concrete input times = [0,1,2,3,4],
U1 = [1,3,5,7], U2 = [2,4,6,8], with the integrator returning the single
state equal to its U1 argument. -/
theorem C1_rate_formula_w :
    calc_rate (fun x : ℚ => x) 10 17 (fun _ _ a _ => [a]) [1] [0, 1, 2, 3, 4]
        (some [1, 3, 5, 7]) (some [2, 4, 6, 8]) (fun _ => 0) =
      (some (((fun x : ℚ => x)
                (l1_norm (vsub (lastState ((fun _ _ a _ => [a]) ([1] : List ℚ) [0, 4] [4 / 25] [-4 / 5]))
                               (lastState ((fun _ _ a _ => [a]) ([1] : List ℚ) [0, 2, 4] [2 / 5, 6 / 5] [-7 / 5, -1])))) -
              (fun x : ℚ => x)
                (l1_norm (vsub (lastState ((fun _ _ a _ => [a]) ([1] : List ℚ) [0, 2, 4] [2 / 5, 6 / 5] [-7 / 5, -1]))
                               (lastState ((fun _ _ a _ => [a]) ([1] : List ℚ) [0, 1, 2, 3, 4] [1, 3, 5, 7] [2, 4, 6, 8]))))) /
             (fun x : ℚ => x) 2), 0) :=
  C1_rate_formula (fun x : ℚ => x) 10 17 (fun _ _ a _ => [a]) [1] [0, 1, 2, 3, 4]
    [1, 3, 5, 7] [2, 4, 6, 8] [0, 2, 4] [2 / 5, 6 / 5] [-7 / 5, -1] [0, 4] [4 / 25] [-4 / 5]
    (fun _ => 0) (by decide)
    (by norm_num [double_increments, sliceStep2, sliceOdd, bcast])
    (by norm_num [double_increments, sliceStep2, sliceOdd, bcast])

/-- C5 counterexample: the claim asserts that a zero distance between the
coarse and middle final states makes estimate_rate signal a numeric domain
error.  The code has no such signal: at this concrete input the constant
integrator makes both distances exactly zero, np.log is applied to 0, and
calc_rate still returns an ordinary value (the model evaluates the total
log argument at 0; in IEEE floats np.log(0) is -inf with only a
RuntimeWarning, never an exception). -/
theorem C5_cex_returns_value :
    calc_rate (fun x : ℚ => x) 10 17 (fun r _ _ _ => [r]) [1] [0, 1, 2, 3, 4]
        (some [1, 2, 3, 4]) (some [5, 6, 7, 8]) (fun _ => 0) = (some 0, 0)
    ∧ l1_norm (vsub ([1] : List ℚ) [1]) = 0 := by
  have h1 : double_increments (10 : ℚ) 17 [0, 1, 2, 3, 4] [1, 2, 3, 4] (some [5, 6, 7, 8])
      = some ([0, 2, 4], [3 / 10, 7 / 10], some [-3 / 10, -1 / 10]) := by
    norm_num [double_increments, sliceStep2, sliceOdd, bcast]
  have h2 : double_increments (10 : ℚ) 17 [0, 2, 4] [3 / 10, 7 / 10] (some [-3 / 10, -1 / 10])
      = some ([0, 4], [1 / 10], some [-9 / 25]) := by
    norm_num [double_increments, sliceStep2, sliceOdd, bcast]
  refine ⟨?_, by simp [l1_norm, vsub]⟩
  rw [calc_rate_eq _ _ _ _ _ _ _ _ _ _ _ _ _ _ _ h1 h2]
  norm_num [lastState, vsub, l1_norm]

/-- C5 amended: if the distance d1 between the coarse and middle final
states is exactly zero, calc_rate signals nothing: it still returns a rate,
with log applied to the zero distance (so in floats the value is silently
coerced through -inf/NaN); symmetrically for d2. -/
theorem C5_log_zero_silent (log : α → α) (s2 s3 : α)
    (integrate : List α → List α → List α → List α → List (List α))
    (rho_0 ts u1 u2 ts2 u12 u22 ts4 u14 u24 : List α) (e : ℕ → α)
    (h1 : double_increments s2 s3 ts u1 (some u2) = some (ts2, u12, some u22))
    (h2 : double_increments s2 s3 ts2 u12 (some u22) = some (ts4, u14, some u24))
    (hcoincide : lastState (integrate rho_0 ts4 u14 u24)
        = lastState (integrate rho_0 ts2 u12 u22)) :
    calc_rate log s2 s3 integrate rho_0 ts (some u1) (some u2) e =
      (some ((log 0 -
              log (l1_norm (vsub (lastState (integrate rho_0 ts2 u12 u22))
                                 (lastState (integrate rho_0 ts u1 u2))))) / log 2), 0) := by
  rw [calc_rate_eq log s2 s3 integrate rho_0 ts u1 u2 ts2 u12 u22 ts4 u14 u24 e h1 h2,
    hcoincide, l1_norm_vsub_self]

/-- Witness for the amended C5 with a constant integrator, whose three
trajectories coincide, at times = [0,1,2,3,4], U1 = [2,4,6,8],
U2 = [1,3,5,7]. -/
theorem C5_log_zero_silent_w :
    calc_rate (fun x : ℚ => x) 10 17 (fun r _ _ _ => [r]) [1] [0, 1, 2, 3, 4]
        (some [2, 4, 6, 8]) (some [1, 3, 5, 7]) (fun _ => 0) =
      (some (((fun x : ℚ => x) 0 -
              (fun x : ℚ => x)
                (l1_norm (vsub (lastState ((fun r _ _ _ => [r]) ([1] : List ℚ) [0, 2, 4] [3 / 5, 7 / 5] [-3 / 2, -11 / 10]))
                               (lastState ((fun r _ _ _ => [r]) ([1] : List ℚ) [0, 1, 2, 3, 4] [2, 4, 6, 8] [1, 3, 5, 7]))))) /
             (fun x : ℚ => x) 2), 0) :=
  C5_log_zero_silent (fun x : ℚ => x) 10 17 (fun r _ _ _ => [r]) [1] [0, 1, 2, 3, 4]
    [2, 4, 6, 8] [1, 3, 5, 7] [0, 2, 4] [3 / 5, 7 / 5] [-3 / 2, -11 / 10] [0, 4] [1 / 5]
    [-81 / 100] (fun _ => 0)
    (by norm_num [double_increments, sliceStep2, sliceOdd, bcast])
    (by norm_num [double_increments, sliceStep2, sliceOdd, bcast])
    rfl

/-- C7: two-run determinism.  With identical times, U1 and U2 all supplied
and the integrator a (deterministic) function of its arguments, two calls of
calc_rate agree even across different entropy streams, and no entropy is
consumed (the consumed-samples count is 0). -/
theorem C7_determinism (log : α → α) (s2 s3 : α)
    (integrate : List α → List α → List α → List α → List (List α))
    (rho_0 ts u1 u2 : List α) (e eAlt : ℕ → α) :
    calc_rate log s2 s3 integrate rho_0 ts (some u1) (some u2) e
      = calc_rate log s2 s3 integrate rho_0 ts (some u1) (some u2) eAlt
    ∧ (calc_rate log s2 s3 integrate rho_0 ts (some u1) (some u2) e).2 = 0 :=
  ⟨rfl, rfl⟩

/-- C10: whenever calc_rate is called with U2s omitted (even with U1s
supplied) it first draws n = len(times) - 1 fresh standard-normal samples
for U2s, and from then on behaves exactly as if that drawn sequence had
been supplied (consuming n entropy samples); and the refiner, when handed a
non-none U2 argument as calc_rate always does, never produces the
two-element (no-U2) return shape: any successful result carries some U2
component. -/
theorem C10_default_U2 (log : α → α) (s2 s3 : α)
    (integrate : List α → List α → List α → List α → List (List α))
    (rho_0 ts u1 : List α) (e : ℕ → α) (ts' u1' u2' : List α) :
    calc_rate log s2 s3 integrate rho_0 ts (some u1) none e
      = ((calc_rate log s2 s3 integrate rho_0 ts (some u1)
            (some (draw e 0 (ts.length - 1))) e).1, ts.length - 1)
    ∧ ((double_increments s2 s3 ts' u1' (some u2')).map (fun r => r.2.2.isSome)).getD true
        = true := by
  refine ⟨?_, dbl_someU2_isSome s2 s3 ts' u1' u2'⟩
  have key : ∀ z : Option α, (z, 0 + (ts.length - 1)) = (z, ts.length - 1) := by
    intro z
    rw [Nat.zero_add]
  exact key _

/-- C6: evaluation of double_increments at a batch input, exhibiting the
bug.  The docstring documents U1s as numpy.array(N, len(times) - 1) with
independent trajectories as rows, so refinement should act row-wise and
return N rows of length n/2; but U1s[::2] slices axis 0, pairing adjacent
ROWS.  At times = [0,1,2], U1s = [[1,2],[3,4]] (N = 2 rows, n = 2) the code
returns a single row [(1+3)/sqrt2, (2+4)/sqrt2] mixing the two
trajectories, instead of the two rows [[(1+2)/sqrt2], [(3+4)/sqrt2]]. -/
theorem C6_batch_slices_axis0 :
    double_increments2 (10 : ℚ) 17 [0, 1, 2] [[1, 2], [3, 4]] none
      = some ([0, 2], [[(1 + 3) / 10, (2 + 4) / 10]], none) := by
  norm_num [double_increments2, bcast2, bcast, seqOpt, sliceStep2, sliceOdd]

/-- C8 counterexample: the claim says refine never raises on odd-length
increment sequences.  At the odd length n = 5 the two slices U1s[::2] and
U1s[1::2] have lengths 3 and 2, which numpy cannot broadcast: the addition
raises a ValueError (the model's none) rather than completing silently. -/
theorem C8_cex_odd_raises :
    double_increments (10 : ℚ) 17 [0, 1, 2, 3, 4, 5] [2, 2, 2, 2, 2] none = none := by
  norm_num [double_increments, sliceStep2, sliceOdd, bcast]

/-- C8 amended: an odd-length increment sequence completes silently only
when one of the two half-slices has length at most 1, i.e. for n = 1 or
n = 3 (where numpy length-1 broadcasting silently misaligns the pairing);
for every odd n greater or equal to 5 the elementwise pairing of the
slices of lengths (n+1)/2 and (n-1)/2 fails with a broadcast error. -/
theorem C8_odd_length_behavior (s2 s3 : α) (ts u1 vs w1 : List α)
    (h1 : u1.length % 2 = 1) (h2 : 5 ≤ u1.length)
    (h3 : w1.length % 2 = 1) (h4 : w1.length < 5) :
    double_increments s2 s3 ts u1 none = none
    ∧ (double_increments s2 s3 vs w1 none).isSome = true := by
  constructor
  · have hx : 2 ≤ (sliceStep2 u1).length := by rw [sliceStep2_length]; omega
    have hy : 2 ≤ (sliceOdd u1).length := by rw [sliceOdd_length]; omega
    have hne : (sliceStep2 u1).length ≠ (sliceOdd u1).length := by
      rw [sliceStep2_length, sliceOdd_length]; omega
    simp [double_increments, bcast_eq_none _ _ _ hx hy hne]
  · have hcase : w1.length = 1 ∨ w1.length = 3 := by omega
    rcases hcase with hl | hl
    · obtain ⟨a, rfl⟩ := List.length_eq_one.mp hl
      simp [double_increments, sliceStep2, sliceOdd, bcast]
    · obtain ⟨a, b, c, rfl⟩ := List.length_eq_three.mp hl
      simp [double_increments, sliceStep2, sliceOdd, bcast]

/-- Witness for the amended C8: the odd length 5 errors, the odd length 3
completes. -/
theorem C8_odd_length_behavior_w :
    double_increments (10 : ℚ) 17 [0, 1, 2, 3, 4, 5] [1, 1, 1, 1, 1] none = none
    ∧ (double_increments (10 : ℚ) 17 [0, 1, 2, 3] [1, 1, 1] none).isSome = true :=
  C8_odd_length_behavior 10 17 [0, 1, 2, 3, 4, 5] [1, 1, 1, 1, 1] [0, 1, 2, 3] [1, 1, 1]
    (by decide) (by decide) (by decide) (by decide)

/-- C9 counterexample: the claim says no returned sequence aliases an input
sequence.  In numpy, times[::2] is a basic slice, hence a view over the
caller's times buffer.  At this concrete input the input times view lives
in buffer 0 and the returned times view has base buffer 0 as well: it
aliases the input. -/
theorem C9_cex_times_aliases :
    ((double_increments_mem (1 : ℚ) 1 (fun _ _ => 0) 2 ⟨0, 0, 1, 3⟩ ⟨1, 0, 1, 2⟩ none).map
      (fun r => r.2.2.1.base)) = some 0 := rfl

/-- C9 amended: double_increments writes no previously allocated buffer
(every cell of every buffer below the allocation counter, in particular the
caller's times, U1s and U2s arrays, is unchanged), and the returned U1s
and U2s arrays are freshly allocated; but the returned times array is a
strided view over the caller's times buffer, so it does alias an input. -/
theorem C9_no_mutation_times_aliases (s2 s3 : α) (h : Heap α) (ctr : ℕ)
    (tv uv : NView) (u2v : Option NView)
    (h' : Heap α) (ctr' : ℕ) (nt nu : NView) (nu2 : Option NView)
    (hcall : double_increments_mem s2 s3 h ctr tv uv u2v = some (h', ctr', nt, nu, nu2))
    (b i : ℕ) (hb : b < ctr) :
    h' b i = h b i ∧ nt.base = tv.base ∧ nu.base = ctr
    ∧ (nu2.map NView.base).getD (ctr + 1) = ctr + 1 := by
  rcases hb1 : bcast (fun a b : α => a + b) ((npSlice2 uv).toList h) ((npSlice2Odd uv).toList h)
    with _ | s
  · simp [double_increments_mem, hb1] at hcall
  · cases u2v with
    | none =>
      simp only [double_increments_mem, hb1, Option.bind_some, Option.some_bind,
        Option.some.injEq, Prod.mk.injEq] at hcall
      obtain ⟨e1, e2, e3, e4, e5⟩ := hcall
      refine ⟨?_, ?_, ?_, ?_⟩
      · rw [← e1, writeList_ne _ _ _ _ _ (by omega)]
      · rw [← e3]; rfl
      · rw [← e4]
      · rw [← e5]; rfl
    | some u2 =>
      rcases hb2 : bcast (fun a b : α => a - b)
          ((npSlice2 uv).toList (writeList h ctr (s.map (fun x => x / s2))))
          ((npSlice2Odd uv).toList (writeList h ctr (s.map (fun x => x / s2)))) with _ | d
      · simp [double_increments_mem, hb1, hb2] at hcall
      · rcases hb3 : bcast (fun a b : α => a + b) (d.map (fun x => s3 * x))
            ((npSlice2 u2).toList (writeList h ctr (s.map (fun x => x / s2)))) with _ | t3
        · simp [double_increments_mem, hb1, hb2, hb3] at hcall
        · rcases hb4 : bcast (fun a b : α => a + b) t3
              ((npSlice2Odd u2).toList (writeList h ctr (s.map (fun x => x / s2))))
              with _ | t4
          · simp [double_increments_mem, hb1, hb2, hb3, hb4] at hcall
          · simp only [double_increments_mem, hb1, hb2, hb3, hb4, Option.bind_some,
              Option.some_bind, Option.some.injEq, Prod.mk.injEq] at hcall
            obtain ⟨e1, e2, e3, e4, e5⟩ := hcall
            refine ⟨?_, ?_, ?_, ?_⟩
            · rw [← e1, writeList_ne _ _ _ _ _ (by omega),
                writeList_ne _ _ _ _ _ (by omega)]
            · rw [← e3]; rfl
            · rw [← e4]
            · rw [← e5]; rfl

/-- Witness for the amended C9 at a concrete heap with times in buffer 0,
U1s in buffer 1 and allocation counter 2. -/
theorem C9_no_mutation_times_aliases_w :
    (writeList (fun _ _ => (0 : ℚ)) 2 [(0 + 0) / 1]) 0 5 = (fun _ _ => (0 : ℚ)) 0 5
    ∧ (⟨0, 0, 2, 2⟩ : NView).base = (⟨0, 0, 1, 3⟩ : NView).base
    ∧ (⟨2, 0, 1, 1⟩ : NView).base = 2
    ∧ ((none : Option NView).map NView.base).getD (2 + 1) = 2 + 1 :=
  C9_no_mutation_times_aliases 1 1 (fun _ _ => 0) 2 ⟨0, 0, 1, 3⟩ ⟨1, 0, 1, 2⟩ none
    (writeList (fun _ _ => 0) 2 [(0 + 0) / 1]) 3 ⟨0, 0, 2, 2⟩ ⟨2, 0, 1, 1⟩ none rfl 0 5
    (by decide)

end GridConv
